import Mathlib

/-!
Verification of the Baker core of obsidian-easy-bake (src/bake.ts).

The TypeScript source is shallowly embedded below: JavaScript strings become
Lean `String` (a list of characters; all inputs of interest are ASCII, where
JavaScript UTF-16 indices and character indices agree), byte offsets become
`Nat`/`Int` with the same clamping behaviour as `String.prototype.substring`,
the asynchronous recursion of `bake` becomes a fuel-indexed total function
returning `Option String` (`none` only on fuel exhaustion), and the external
Obsidian services (vault, metadata cache, link resolver, platform adapter)
become function fields of an `App` structure, mirroring how the source treats
them as black boxes.
-/

namespace EasyBake

/-- A handle to a file in the vault, identity-comparable, as the source uses
`TFile` values (`path` and `extension` are the two fields `bake` reads). -/
structure TFile where
  path : String
  extension : String
deriving DecidableEq

/-- A reference entry of the metadata cache (`ReferenceCache`): the raw link
text, the optional display text, and the original byte span
`position.start.offset` / `position.end.offset` (here `start` / `stop`). -/
structure RefCache where
  link : String
  displayText : Option String
  start : Nat
  stop : Nat
deriving DecidableEq

/-- A hidden-region span in original text coordinates, as pushed onto
`hiddenRegions` in the source (`{ start, end }`; `end` is `stop` here). -/
structure Region where
  start : Nat
  stop : Nat
deriving DecidableEq

/-- Opaque token standing for the `resolveSubpath` result consumed by the
external `extractSubpath` collaborator. -/
structure SubpathResult where
  id : Nat
deriving DecidableEq

/-- The slice of `CachedMetadata` that `bake` reads: `cache.links` and
`cache.embeds`, each possibly absent (`cache.links || []`). -/
structure CachedMetadata where
  links : Option (List RefCache)
  embeds : Option (List RefCache)

/-- Modelled from the spec: the settings surface consumed by the Baker
(`BakeSettings` lives in the repository file main.ts, which only declares
these boolean flags). -/
structure BakeSettings where
  bakeLinks : Bool
  bakeEmbeds : Bool
  bakeInList : Bool
  convertFileLinks : Bool
  bakeHidden : Bool

/-- The external services used by `bake`, bundled: `vault.cachedRead`,
`metadataCache.getFileCache`, `metadataCache.getFirstLinkpathDest`,
`adapter.getFullPath` (absent on unsupported platforms, hence `Option`),
`Platform.isWin`, the Obsidian `resolveSubpath` helper, the repository
`extractSubpath` helper (an external collaborator per the spec, consuming the
structural index), and the JavaScript `encodeURI` builtin. -/
structure App where
  cachedRead : TFile → String
  getFileCache : TFile → Option CachedMetadata
  getFirstLinkpathDest : String → String → Option TFile
  getFullPath : Option (String → String)
  isWin : Bool
  resolveSubpath : CachedMetadata → String → Option SubpathResult
  extractSubpath : String → SubpathResult → CachedMetadata → String
  encodeURI : String → String

/-- JavaScript `text.substring(0, n)` (clamping at the ends). -/
def strTake (s : String) (n : Nat) : String := ⟨s.data.take n⟩

/-- JavaScript `text.substring(n)` (clamping at the ends). -/
def strDrop (s : String) (n : Nat) : String := ⟨s.data.drop n⟩

/-! ### Hidden-region discovery and removal (source lines 34-56) -/

/-- The characters of the start marker `%%hidden%%`. -/
def hiddenStartMarker : List Char := "%%hidden%%".data

/-- The characters of the end marker `%%/hidden%%`. -/
def hiddenEndMarker : List Char := "%%/hidden%%".data

/-- First index (counting from the head of `l`) at which `pat` occurs as a
prefix of the remaining list, if any. -/
def findPrefixIdx (pat : List Char) : List Char → Option Nat
  | [] => if pat.isEmpty then some 0 else none
  | c :: rest =>
    if pat.isPrefixOf (c :: rest) then some 0
    else (findPrefixIdx pat rest).map (· + 1)

/-- First index `j ≥ i` at which `pat` occurs in `s`: the behaviour of a
global-flag `RegExp.exec` for a literal pattern starting at `lastIndex = i`. -/
def findSubFrom (s pat : List Char) (i : Nat) : Option Nat :=
  (findPrefixIdx pat (s.drop i)).map (· + i)

/-- The scan loop of source lines 42-49: repeatedly find the next
`%%hidden%%` (the scan resumes 10 characters after each found start marker,
which is where `hiddenStartRE.lastIndex` is left), pair it with the next
`%%/hidden%%` found from `start + 10` on, and record `{start, end: e + 12}`
when one exists.  The literal offsets 10 and 12 are the ones in the source.
Fuel bounds the number of loop iterations; each iteration advances the scan
position by at least 10, so `s.length + 1` iterations always suffice. -/
def findHiddenRegionsAux : Nat → List Char → Nat → List Region
  | 0, _, _ => []
  | fuel + 1, s, pos =>
    match findSubFrom s hiddenStartMarker pos with
    | none => []
    | some idx =>
      match findSubFrom s hiddenEndMarker (idx + 10) with
      | some e => ⟨idx, e + 12⟩ :: findHiddenRegionsAux fuel s (idx + 10)
      | none => findHiddenRegionsAux fuel s (idx + 10)

/-- All hidden regions of a text, in discovery order. -/
def findHiddenRegions (s : List Char) : List Region :=
  findHiddenRegionsAux (s.length + 1) s 0

/-- The removal loop of source lines 51-55: splice out each region, last
region first (`for (let i = hiddenRegions.length - 1; i >= 0; i--)`). -/
def removeRegions (text : String) (regions : List Region) : String :=
  regions.reverse.foldl (fun t r => strTake t r.start ++ strDrop t r.stop) text

/-- Source lines 35-56 as one unit: when `bakeHidden` is set the text passes
through untouched with no regions; otherwise the regions are discovered on
the original text and removed from it. -/
def hiddenFilter (bakeHidden : Bool) (text : String) : String × List Region :=
  if bakeHidden then (text, [])
  else
    let regions := findHiddenRegions text.data
    (removeRegions text regions, regions)

/-- The offset-accumulation loop of source lines 88-95: walk the region list
in order, adding each length `end - start` while `region.start <
adjustedStart`, stopping at the first region that fails the test. -/
def hiddenOffset : List Region → Nat → Nat
  | [], _ => 0
  | r :: rs, s => if r.start < s then r.stop - r.start + hiddenOffset rs s else 0

/-! ### Text-shape tests (the three regular expressions, source lines 18-20) -/

/-- The characters of `s` after its last newline (the whole of `s` when it
has none): the part of `s` that the end-anchored line tests inspect. -/
def lastLine (l : List Char) : List Char :=
  (l.reverse.takeWhile fun c => decide (c ≠ '\n')).reverse

/-- `lineStartRE.test before` for `lineStartRE = (?:^|\n) *$`: the final line
of `before` consists only of spaces. -/
def lineStartTest (s : String) : Bool :=
  (lastLine s.data).all fun c => decide (c = ' ')

/-- A character the list-item regex allows in the captured indent (`[ \t]`). -/
def isIndentChar (c : Char) : Bool := decide (c = ' ') || decide (c = '\t')

/-- A bullet character (`[-*+]`). -/
def isBulletChar (c : Char) : Bool :=
  decide (c = '-') || decide (c = '*') || decide (c = '+')

/-- Match one line against `[ \t]*(?:[-*+]|[0-9]+[.)]) +` (the body of
`listLineStartRE`), returning the captured indent group on success. -/
def parseListLine (l : List Char) : Option (List Char) :=
  let ws := l.takeWhile isIndentChar
  match l.dropWhile isIndentChar with
  | [] => none
  | c :: cs =>
    if isBulletChar c then
      if !cs.isEmpty && cs.all (fun d => decide (d = ' ')) then some ws else none
    else if c.isDigit then
      match (c :: cs).dropWhile Char.isDigit with
      | p :: rest2 =>
        if (decide (p = '.') || decide (p = ')')) &&
            (!rest2.isEmpty && rest2.all fun d => decide (d = ' ')) then
          some ws
        else none
      | [] => none
    else none

/-- `before.match(listLineStartRE)` for
`listLineStartRE = (?:^|\n)([ \t]*)(?:[-*+]|[0-9]+[.)]) +$`, returning the
captured indent (`listMatch[1]`) when the match succeeds. -/
def listLineMatch (s : String) : Option String :=
  (parseListLine (lastLine s.data)).map fun ws => (⟨ws⟩ : String)

/-- `lineEndRE.test after` for `lineEndRE = ^ *(?:\r?\n|$)`: only spaces up
to a newline, a carriage-return-newline pair, or the end of the text. -/
def lineEndTest (s : String) : Bool :=
  match s.data.dropWhile (fun c => decide (c = ' ')) with
  | [] => true
  | c :: rest =>
    if c = '\n' then true
    else if c = '\r' then
      match rest with
      | c2 :: _ => decide (c2 = '\n')
      | [] => false
    else false

/-- The `isInline` expression of source lines 126-127, with `listMatch`
computed only when `bakeInList` is enabled (lines 123-125). -/
def isInlineCode (bakeInList : Bool) (before after : String) : Bool :=
  !((if bakeInList then listLineMatch before else none).isSome ||
      lineStartTest before) || !(lineEndTest after)

/-! ### Link-text parsing and replacement strings -/

/-- The Obsidian `parseLinktext` collaborator, per the spec: the path is the
link text up to an optional subpath suffix introduced by the first
`#` character; the subpath is that suffix (empty when there is none). -/
def parseLinktext (link : String) : String × String :=
  (⟨link.data.takeWhile fun c => decide (c ≠ '#')⟩,
   ⟨link.data.dropWhile fun c => decide (c ≠ '#')⟩)

/-- The JavaScript expression `target.displayText || path`: the display text
when it is present and non-empty (truthy), the path otherwise. -/
def displayOr (displayText : Option String) (path : String) : String :=
  match displayText with
  | some d => if d = "" then path else d
  | none => path

/-! ### Spec-modelled repository helpers (util.ts is not part of src/) -/

/-- Modelled from the spec: `sanitizeBakedContent` from the missing util.ts,
which strips content unsafe to inline verbatim by normalising trailing
structure; modelled as removal of trailing whitespace. -/
def sanitizeBakedContent (text : String) : String :=
  ⟨(text.data.reverse.dropWhile Char.isWhitespace).reverse⟩

/-- Length of the leading `[ \t]*(?:[-*+]|[0-9]+[.)]) +` prefix of a line,
when the line starts with such a list marker. -/
def bulletPrefixLen (l : List Char) : Option Nat :=
  let ws := l.takeWhile isIndentChar
  match l.dropWhile isIndentChar with
  | [] => none
  | c :: cs =>
    if isBulletChar c then
      let sp := cs.takeWhile fun d => decide (d = ' ')
      if sp.isEmpty then none else some (ws.length + 1 + sp.length)
    else if c.isDigit then
      let ds := (c :: cs).takeWhile Char.isDigit
      match (c :: cs).dropWhile Char.isDigit with
      | p :: rest2 =>
        if decide (p = '.') || decide (p = ')') then
          let sp := rest2.takeWhile fun d => decide (d = ' ')
          if sp.isEmpty then none
          else some (ws.length + ds.length + 1 + sp.length)
        else none
      | [] => none
    else none

/-- Modelled from the spec: `stripFirstBullet` from the missing util.ts,
stripping the first bullet or number marker (with its indent and following
spaces) from the baked content when one is present. -/
def stripFirstBullet (text : String) : String :=
  match bulletPrefixLen text.data with
  | some n => ⟨text.data.drop n⟩
  | none => text

/-- Split a character list at newline characters (the newline characters are
dropped; an empty list yields one empty line). -/
def splitLines : List Char → List (List Char)
  | [] => [[]]
  | c :: rest =>
    if c = '\n' then [] :: splitLines rest
    else
      match splitLines rest with
      | g :: gs => (c :: g) :: gs
      | [] => [c :: rest]

/-- Modelled from the spec: `applyIndent` from the missing util.ts.  Per the
spec the first line of the baked content merges into the existing list line
and every subsequent line is indented by the captured indent string. -/
def applyIndent (text : String) (indent : String) : String :=
  match splitLines text.data with
  | [] => text
  | l :: ls => ⟨l ++ (ls.map fun g => '\n' :: (indent.data ++ g)).flatten⟩

/-! ### The per-reference loop body (source lines 82-163) -/

/-- The derived ancestor set `newAncestors = new Set(ancestors); add(file)`
(source lines 76-77), with lists standing for sets. -/
def derivedAncestors (ancestors : List TFile) (file : TFile) : List TFile :=
  if file ∈ ancestors then ancestors else file :: ancestors

/-- The part of the loop body from source line 111 on, after the hidden
adjustment fixed `adjustedStart` and `adjustedEnd`: slice `before` and
`after` around the live span, resolve the link, classify the shape, and
either skip, rewrite to a file URL, replace with display text or path, or
recurse through `rec` (the fuelled `bake` at one level down).  The result is
the new `(text, posOffset)` pair; `none` only signals fuel exhaustion inside
`rec`. -/
def processAdjusted (app : App) (settings : BakeSettings)
    (rec : TFile → Option String → List TFile → Option String)
    (file : TFile) (newAncestors : List TFile)
    (text : String) (posOffset : Int) (target : RefCache)
    (adjustedStart adjustedEnd : Int) : Option (String × Int) :=
  let start := adjustedStart + posOffset
  let stop := adjustedEnd + posOffset
  let prevLen := stop - start
  let before := strTake text start.toNat
  let after := strDrop text stop.toNat
  let path := (parseLinktext target.link).1
  let subpath := (parseLinktext target.link).2
  match app.getFirstLinkpathDest path file.path with
  | none => some (text, posOffset)
  | some linkedFile =>
    let listMatch := if settings.bakeInList then listLineMatch before else none
    let isInline :=
      !(listMatch.isSome || lineStartTest before) || !(lineEndTest after)
    let isMarkdownFile := decide (linkedFile.extension = "md")
    if !isMarkdownFile then
      if !settings.convertFileLinks then some (text, posOffset)
      else
        match app.getFullPath with
        | none => some (text, posOffset)
        | some getFullPath =>
          let fullPath := getFullPath linkedFile.path
          let protocol := if app.isWin then "file:///" else "file://"
          let replacement := "![](" ++ protocol ++ app.encodeURI fullPath ++ ")"
          some (before ++ replacement ++ after,
            posOffset + (replacement.length : Int) - prevLen)
    else if decide (linkedFile ∈ newAncestors) || isInline then
      let replacement := displayOr target.displayText path
      some (before ++ replacement ++ after,
        posOffset + (replacement.length : Int) - prevLen)
    else
      match rec linkedFile (some subpath) newAncestors with
      | none => none
      | some rawBaked =>
        let baked := sanitizeBakedContent rawBaked
        let replacement :=
          match listMatch with
          | some indent => applyIndent (stripFirstBullet baked) indent
          | none => baked
        some (before ++ replacement ++ after,
          posOffset + (replacement.length : Int) - prevLen)

/-- One full iteration of the `for (const target of targets)` loop: the
hidden-region offset adjustment and within-hidden skip of source lines
83-109, followed by `processAdjusted`. -/
def processTarget (app : App) (settings : BakeSettings)
    (rec : TFile → Option String → List TFile → Option String)
    (file : TFile) (hiddenRegions : List Region) (newAncestors : List TFile)
    (text : String) (posOffset : Int) (target : RefCache) :
    Option (String × Int) :=
  if settings.bakeHidden then
    processAdjusted app settings rec file newAncestors text posOffset target
      target.start target.stop
  else
    let offset := hiddenOffset hiddenRegions target.start
    let adjustedStart : Int := (target.start : Int) - offset
    let adjustedEnd : Int := (target.stop : Int) - offset
    if hiddenRegions.any fun r =>
        decide (r.start ≤ target.start) && decide (target.stop ≤ r.stop) then
      some (text, posOffset)
    else
      processAdjusted app settings rec file newAncestors text posOffset target
        adjustedStart adjustedEnd

/-- The whole loop, threading `(text, posOffset)` through the sorted target
list in order; the first fuel exhaustion aborts with `none`. -/
def bakeTargets (app : App) (settings : BakeSettings)
    (rec : TFile → Option String → List TFile → Option String)
    (file : TFile) (hiddenRegions : List Region) (newAncestors : List TFile) :
    List RefCache → String → Int → Option (String × Int)
  | [], text, posOffset => some (text, posOffset)
  | t :: ts, text, posOffset =>
    match processTarget app settings rec file hiddenRegions newAncestors
        text posOffset t with
    | none => none
    | some (text2, posOffset2) =>
      bakeTargets app settings rec file hiddenRegions newAncestors
        ts text2 posOffset2

/-- Stable insertion of a target behind every earlier target whose start
does not exceed its own. -/
def insertByStart (t : RefCache) : List RefCache → List RefCache
  | [] => [t]
  | u :: us => if u.start ≤ t.start then u :: insertByStart t us else t :: u :: us

/-- The stable ascending sort
`targets.sort((a, b) => a.position.start.offset - b.position.start.offset)`
of source line 74, modelled as a stable insertion sort. -/
def sortByStart (l : List RefCache) : List RefCache :=
  l.foldl (fun acc t => insertByStart t acc) []

/-! ### The Baker (source lines 22-166) -/

/-- The recursive `bake` function, indexed by fuel: read the text, apply the
hidden-region filter, bail out with the filtered text when there is no cache
entry, narrow to a resolved subpath, collect and sort the enabled reference
lists, and run the replacement loop with the derived ancestor set.  Source
recursion (line 158) becomes a call at one fuel level down; `none` is
returned exactly when the fuel runs out. -/
def bake (app : App) (settings : BakeSettings) :
    Nat → TFile → Option String → List TFile → Option String
  | 0, _, _, _ => none
  | fuel + 1, file, subpath, ancestors =>
    let filtered := hiddenFilter settings.bakeHidden (app.cachedRead file)
    let text := filtered.1
    let hiddenRegions := filtered.2
    match app.getFileCache file with
    | none => some text
    | some cache =>
      let resolvedSubpath :=
        match subpath with
        | some sp => if sp = "" then none else app.resolveSubpath cache sp
        | none => none
      let text2 :=
        match resolvedSubpath with
        | some r => app.extractSubpath text r cache
        | none => text
      let links := if settings.bakeLinks then cache.links.getD [] else []
      let embeds := if settings.bakeEmbeds then cache.embeds.getD [] else []
      let targets := links ++ embeds
      if targets.isEmpty then some text2
      else
        let sorted := sortByStart targets
        let newAncestors := derivedAncestors ancestors file
        match bakeTargets app settings (bake app settings fuel) file
            hiddenRegions newAncestors sorted text2 0 with
        | none => none
        | some (t, _) => some t

/-! ## Concrete instances used by witnesses and counterexamples -/

/-- A file handle used in closed witness statements. -/
def fileW : TFile := ⟨"W.md", "md"⟩

/-- A minimal vault environment used in closed witness statements. -/
def appW : App where
  cachedRead _ := ""
  getFileCache _ := none
  getFirstLinkpathDest _ _ := none
  getFullPath := none
  isWin := false
  resolveSubpath _ _ := none
  extractSubpath t _ _ := t
  encodeURI s := s

/-- Settings with every feature on except `bakeHidden`. -/
def stW : BakeSettings := ⟨true, true, true, true, false⟩

/-- A recursion stub used where the recursive call cannot be reached. -/
def recW : TFile → Option String → List TFile → Option String :=
  fun _ _ _ => none

/-- Settings with every feature on, including `bakeHidden`. -/
def stT : BakeSettings := ⟨true, true, true, true, true⟩

/-- The file holding the hidden-region test text of spec section 8. -/
def fileHidden : TFile := ⟨"Hidden.md", "md"⟩

/-- A vault with one parseable file whose text is
`A%%hidden%%B%%/hidden%%C` and which contains no references. -/
def appHidden : App where
  cachedRead _ := "A%%hidden%%B%%/hidden%%C"
  getFileCache _ := some ⟨some [], some []⟩
  getFirstLinkpathDest _ _ := none
  getFullPath := none
  isWin := false
  resolveSubpath _ _ := none
  extractSubpath t _ _ := t
  encodeURI s := s

/-- A vault whose resolver maps the path `W` to `fileW`. -/
def appR : App where
  cachedRead _ := ""
  getFileCache _ := none
  getFirstLinkpathDest p _ := if p = "W" then some fileW else none
  getFullPath := none
  isWin := false
  resolveSubpath _ _ := none
  extractSubpath t _ _ := t
  encodeURI s := s

/-- A recursion stub that would be visible in the output if it were used. -/
def recBoom : TFile → Option String → List TFile → Option String :=
  fun _ _ _ => some "BOOM"

/-- First node of a two-document cycle. -/
def fX : TFile := ⟨"X.md", "md"⟩

/-- Second node of a two-document cycle. -/
def fY : TFile := ⟨"Y.md", "md"⟩

/-- A vault in which `X` embeds `Y` and `Y` embeds `X`. -/
def appCycle : App where
  cachedRead f := if f = fX then "![[Y]]" else "![[X]]"
  getFileCache f :=
    if f = fX then some ⟨some [], some [⟨"Y", none, 0, 6⟩]⟩
    else some ⟨some [], some [⟨"X", none, 0, 6⟩]⟩
  getFirstLinkpathDest p _ :=
    if p = "X" then some fX else if p = "Y" then some fY else none
  getFullPath := none
  isWin := false
  resolveSubpath _ _ := none
  extractSubpath t _ _ := t
  encodeURI s := s

/-- The host file of the list-item re-indentation scenario. -/
def fH : TFile := ⟨"H.md", "md"⟩

/-- The embedded note of the list-item re-indentation scenario. -/
def fNote : TFile := ⟨"Note.md", "md"⟩

/-- A vault in which `H` is the list item `- [[Note]]` and `Note` holds the
two lines `Line1` and `Line2` (and has no cache entry of its own, so it
bakes to its text verbatim). -/
def appNote : App where
  cachedRead f := if f = fH then "- [[Note]]" else "Line1\nLine2"
  getFileCache f :=
    if f = fH then some ⟨some [⟨"Note", none, 2, 10⟩], some []⟩ else none
  getFirstLinkpathDest p _ := if p = "Note" then some fNote else none
  getFullPath := none
  isWin := false
  resolveSubpath _ _ := none
  extractSubpath t _ _ := t
  encodeURI s := s

/-- The recursion function standing for the baked content of `Note`. -/
def recNote : TFile → Option String → List TFile → Option String :=
  fun _ _ _ => some "Line1\nLine2"

/-! ## Specification-side definitions

These re-state, in the words of the specification, quantities that the code
computes operationally; the theorems below compare them with the code. -/

/-- Spec wording of the offset adjustment (spec 4.2): the sum of the lengths
`end - start` of the regions, taken in list order (ascending starts), up to
but not including the first region whose start is not below `s`. -/
def hiddenOffsetSpec (regions : List Region) (s : Nat) : Nat :=
  ((regions.takeWhile fun r => decide (r.start < s)).map fun r =>
    r.stop - r.start).sum

/-- The part of a list before its last newline, the complement of
`lastLine`: empty or ending in a newline. -/
def dropLastLine (l : List Char) : List Char :=
  (l.reverse.dropWhile fun c => decide (c ≠ '\n')).reverse

/-- Spec wording of the bare-line test on the text before a reference: it
ends at a line start followed only by spaces (spec 4.3). -/
def EndsAtLineStart (s : String) : Prop :=
  ∃ pre suf : List Char, s.data = pre ++ suf ∧
    (pre = [] ∨ pre.getLast? = some '\n') ∧ ∀ c ∈ suf, c = ' '

/-- Spec wording of a bullet marker: one of `-`, `*`, `+`. -/
def IsBulletMark (m : List Char) : Prop :=
  m = ['-'] ∨ m = ['*'] ∨ m = ['+']

/-- Spec wording of a numbered marker: one or more digits followed by a
period or a closing parenthesis. -/
def IsNumberMark (m : List Char) : Prop :=
  ∃ ds p, ds ≠ [] ∧ (∀ c ∈ ds, c.isDigit = true) ∧ (p = '.' ∨ p = ')') ∧
    m = ds ++ [p]

/-- Spec wording of the list-item-start test on the text before a
reference: a line start, optional leading whitespace, a bullet or numbered
marker, then at least one space and nothing else (spec 4.3). -/
def StartsListItem (s : String) : Prop :=
  ∃ pre ws mark sp : List Char, s.data = pre ++ ws ++ mark ++ sp ∧
    (pre = [] ∨ pre.getLast? = some '\n') ∧
    (∀ c ∈ ws, c = ' ' ∨ c = '\t') ∧
    (IsBulletMark mark ∨ IsNumberMark mark) ∧
    sp ≠ [] ∧ (∀ c ∈ sp, c = ' ')

/-- Spec wording of the end-of-line test on the text after a reference:
only spaces up to a newline, a carriage-return-newline pair, or the end of
the text (spec 4.3). -/
def EndsLine (s : String) : Prop :=
  ∃ sp rest : List Char, s.data = sp ++ rest ∧ (∀ c ∈ sp, c = ' ') ∧
    (rest = [] ∨ (∃ t, rest = '\n' :: t) ∨ ∃ t, rest = '\r' :: '\n' :: t)

/-! ## Theorems -/

/-- The loop of lines 88-95 accumulates exactly the take-while sum. -/
theorem hiddenOffset_eq_spec (regions : List Region) (s : Nat) :
    hiddenOffset regions s = hiddenOffsetSpec regions s := by
  induction regions with
  | nil => rfl
  | cons r rs ih =>
    simp only [hiddenOffset, hiddenOffsetSpec, List.takeWhile_cons]
    by_cases h : r.start < s
    · simp [h, ih, hiddenOffsetSpec]
    · simp [h]

/-- C1: for every reference processed when `bakeHidden` is false, the offset
adjustment subtracted from both its start and its end equals the sum of the
lengths (end minus start) of the hidden regions, taken in list (ascending
start) order, up to but not including the first region whose start is not
less than the original start of the reference; and any reference whose
original, unadjusted span lies entirely within some hidden region
(`region.start ≤ start` and `stop ≤ region.stop`) is skipped entirely,
leaving the text and the running position offset unchanged. -/
theorem bake_hidden_offset_adjustment :
    (∀ (regions : List Region) (s : Nat),
      hiddenOffset regions s = hiddenOffsetSpec regions s) ∧
    (∀ app settings rec file regions newAnc text off t,
      settings.bakeHidden = false →
      (regions.any fun r =>
        decide (r.start ≤ t.start) && decide (t.stop ≤ r.stop)) = true →
      processTarget app settings rec file regions newAnc text off t =
        some (text, off)) ∧
    (∀ app settings rec file regions newAnc text off t,
      settings.bakeHidden = false →
      (regions.any fun r =>
        decide (r.start ≤ t.start) && decide (t.stop ≤ r.stop)) = false →
      processTarget app settings rec file regions newAnc text off t =
        processAdjusted app settings rec file newAnc text off t
          ((t.start : Int) - hiddenOffset regions t.start)
          ((t.stop : Int) - hiddenOffset regions t.start)) := by
  refine ⟨hiddenOffset_eq_spec, ?_, ?_⟩
  · intro app settings rec file regions newAnc text off t h1 h2
    simp [processTarget, h1, h2]
  · intro app settings rec file regions newAnc text off t h1 h2
    simp [processTarget, h1, h2]

/-- Closed instance of the C1 theorem at concrete inputs. -/
theorem bake_hidden_offset_adjustment_witness :
    hiddenOffset [⟨0, 3⟩, ⟨5, 9⟩] 6 = hiddenOffsetSpec [⟨0, 3⟩, ⟨5, 9⟩] 6 ∧
    processTarget appW stW recW fileW [⟨0, 5⟩] [] "abc" 0 ⟨"L", none, 1, 2⟩ =
      some ("abc", 0) ∧
    processTarget appW stW recW fileW [⟨0, 5⟩] [] "abc" 0 ⟨"L", none, 7, 9⟩ =
      processAdjusted appW stW recW fileW [] "abc" 0 ⟨"L", none, 7, 9⟩
        ((7 : Int) - hiddenOffset [⟨0, 5⟩] 7)
        ((9 : Int) - hiddenOffset [⟨0, 5⟩] 7) :=
  ⟨bake_hidden_offset_adjustment.1 [⟨0, 3⟩, ⟨5, 9⟩] 6,
   bake_hidden_offset_adjustment.2.1 appW stW recW fileW [⟨0, 5⟩] [] "abc" 0
     ⟨"L", none, 1, 2⟩ rfl (by decide),
   bake_hidden_offset_adjustment.2.2 appW stW recW fileW [⟨0, 5⟩] [] "abc" 0
     ⟨"L", none, 7, 9⟩ rfl (by decide)⟩

/-- C2: the spec demands output `AC`, but the source removes each region as
`[start, endMatch.index + 12)` although the end marker `%%/hidden%%` is 11
characters long (the comment on source line 47 even says 12 is the length of
`%%/hidden%%`), so one character beyond the end marker is also removed and
the output is `A`, not `AC`. -/
theorem bake_hidden_removal_off_by_one :
    bake appHidden stW 1 fileHidden none [] = some "A" ∧
    (hiddenFilter false "A%%hidden%%B%%/hidden%%C").2 = [⟨1, 24⟩] ∧
    bake appHidden stW 1 fileHidden none [] ≠ some "AC" := by
  refine ⟨by decide, by decide, by decide⟩

/-- C8: for every document whose metadata cache entry is absent, `bake`
returns the hidden-filtered text verbatim (the unfiltered text when
`bakeHidden` is set), with no subpath narrowing and no reference processing:
the result is the same for every resolver, extractor and reference list. -/
theorem bake_no_cache_returns_filtered_text
    (app : App) (settings : BakeSettings) (fuel : Nat) (file : TFile)
    (subpath : Option String) (ancestors : List TFile)
    (h : app.getFileCache file = none) :
    bake app settings (fuel + 1) file subpath ancestors =
      some (hiddenFilter settings.bakeHidden (app.cachedRead file)).1 ∧
    ∀ text, hiddenFilter true text = (text, []) := by
  constructor
  · simp [bake, h]
  · intro text
    rfl

/-- Closed instance of the C8 theorem at concrete inputs. -/
theorem bake_no_cache_returns_filtered_text_witness :
    bake appW stW 1 fileW none [] =
      some (hiddenFilter stW.bakeHidden (appW.cachedRead fileW)).1 ∧
    hiddenFilter true "x" = ("x", []) :=
  ⟨(bake_no_cache_returns_filtered_text appW stW 0 fileW none [] rfl).1,
   (bake_no_cache_returns_filtered_text appW stW 0 fileW none [] rfl).2 "x"⟩

/-- Helper: when the path does not resolve, or resolves to a non-document
while conversion is disabled or the platform path lookup is absent, the loop
body leaves the state untouched, whatever the adjusted span was. -/
theorem processAdjusted_skip (app : App) (settings : BakeSettings)
    (rec : TFile → Option String → List TFile → Option String)
    (file : TFile) (newAnc : List TFile) (text : String) (off : Int)
    (t : RefCache) (s e : Int)
    (h : app.getFirstLinkpathDest (parseLinktext t.link).1 file.path = none ∨
      ∃ lf, app.getFirstLinkpathDest (parseLinktext t.link).1 file.path =
          some lf ∧ lf.extension ≠ "md" ∧
        (settings.convertFileLinks = false ∨ app.getFullPath = none)) :
    processAdjusted app settings rec file newAnc text off t s e =
      some (text, off) := by
  rcases h with h | ⟨lf, hres, hmd, hc | hc⟩
  · simp [processAdjusted, h]
  · simp [processAdjusted, hres, hmd, hc]
  · simp only [processAdjusted, hres, hmd, hc]
    simp [hmd]

/-- C7: for every reference whose path does not resolve, or whose target is
a non-document file while `convertFileLinks` is disabled or the platform
full-path lookup is unavailable, the loop body returns the text and position
offset unchanged (never a failure), and the target loop simply moves on to
the subsequent references. -/
theorem bake_skip_unresolved_and_nondocument (app : App)
    (settings : BakeSettings) (file : TFile) (t : RefCache)
    (h : app.getFirstLinkpathDest (parseLinktext t.link).1 file.path = none ∨
      ∃ lf, app.getFirstLinkpathDest (parseLinktext t.link).1 file.path =
          some lf ∧ lf.extension ≠ "md" ∧
        (settings.convertFileLinks = false ∨ app.getFullPath = none)) :
    ∀ rec hr newAnc text off (s e : Int) ts,
      processAdjusted app settings rec file newAnc text off t s e =
        some (text, off) ∧
      processTarget app settings rec file hr newAnc text off t =
        some (text, off) ∧
      bakeTargets app settings rec file hr newAnc (t :: ts) text off =
        bakeTargets app settings rec file hr newAnc ts text off := by
  intro rec hr newAnc text off s e ts
  have hpa : ∀ s2 e2 : Int,
      processAdjusted app settings rec file newAnc text off t s2 e2 =
        some (text, off) :=
    fun s2 e2 => processAdjusted_skip app settings rec file newAnc text off
      t s2 e2 h
  have hpt : processTarget app settings rec file hr newAnc text off t =
      some (text, off) := by
    simp only [processTarget]
    split
    · exact hpa _ _
    · split
      · rfl
      · exact hpa _ _
  refine ⟨hpa s e, hpt, ?_⟩
  simp only [bakeTargets, hpt]

/-- Closed instance of the C7 theorem at concrete inputs. -/
theorem bake_skip_unresolved_and_nondocument_witness :
    processAdjusted appW stW recW fileW [] "txt" 0 ⟨"Gone", none, 0, 3⟩ 0 3 =
      some ("txt", 0) ∧
    processTarget appW stW recW fileW [] [] "txt" 0 ⟨"Gone", none, 0, 3⟩ =
      some ("txt", 0) ∧
    bakeTargets appW stW recW fileW [] [] [⟨"Gone", none, 0, 3⟩] "txt" 0 =
      bakeTargets appW stW recW fileW [] [] [] "txt" 0 :=
  bake_skip_unresolved_and_nondocument appW stW fileW ⟨"Gone", none, 0, 3⟩
    (Or.inl rfl) recW [] [] "txt" 0 0 3 []

/-- Helper: the replacement equation of the cycle-or-inline branch (source
lines 150-154).  The branch replaces the span with the display text when
that is truthy, the parsed path otherwise, and touches nothing else. -/
theorem processAdjusted_doc_branch (app : App) (settings : BakeSettings)
    (rec : TFile → Option String → List TFile → Option String)
    (file : TFile) (newAnc : List TFile) (text : String) (off : Int)
    (t : RefCache) (s e : Int) (lf : TFile)
    (hres : app.getFirstLinkpathDest (parseLinktext t.link).1 file.path =
      some lf)
    (hmd : lf.extension = "md")
    (hbr : (decide (lf ∈ newAnc) || isInlineCode settings.bakeInList
        (strTake text (s + off).toNat) (strDrop text (e + off).toNat)) =
      true) :
    processAdjusted app settings rec file newAnc text off t s e =
      some (strTake text (s + off).toNat ++
          displayOr t.displayText (parseLinktext t.link).1 ++
          strDrop text (e + off).toNat,
        off + ((displayOr t.displayText (parseLinktext t.link).1).length :
          Int) - (e - s)) := by
  simp only [isInlineCode] at hbr
  simp only [processAdjusted, hres, hmd, decide_True, Bool.not_true,
    Bool.false_eq_true, if_false, hbr, if_true]
  have harith : e + off - (s + off) = e - s := by ring
  rw [harith]

/-- C4: for every reference whose resolved target is a document (markdown
file), if the target is already in the derived ancestor set (the caller set
plus the current document) or the shape is classified inline, the reference
span is replaced by the display text when that is present (truthy) and by
the parsed path string otherwise, the position offset is updated by the
length delta, and no recursion into the target occurs: the result is the
same for every recursion function. -/
theorem bake_cycle_or_inline_replacement (app : App) (settings : BakeSettings)
    (rec rec2 : TFile → Option String → List TFile → Option String)
    (file : TFile) (anc : List TFile) (text : String) (off : Int)
    (t : RefCache) (s e : Int) (lf : TFile)
    (hres : app.getFirstLinkpathDest (parseLinktext t.link).1 file.path =
      some lf)
    (hmd : lf.extension = "md")
    (hbr : lf ∈ derivedAncestors anc file ∨
      isInlineCode settings.bakeInList (strTake text (s + off).toNat)
        (strDrop text (e + off).toNat) = true) :
    processAdjusted app settings rec file (derivedAncestors anc file) text
        off t s e =
      some (strTake text (s + off).toNat ++
          displayOr t.displayText (parseLinktext t.link).1 ++
          strDrop text (e + off).toNat,
        off + ((displayOr t.displayText (parseLinktext t.link).1).length :
          Int) - (e - s)) ∧
    processAdjusted app settings rec file (derivedAncestors anc file) text
        off t s e =
      processAdjusted app settings rec2 file (derivedAncestors anc file) text
        off t s e := by
  have hb : (decide (lf ∈ derivedAncestors anc file) ||
      isInlineCode settings.bakeInList (strTake text (s + off).toNat)
        (strDrop text (e + off).toNat)) = true := by
    rcases hbr with hbr | hbr
    · simp [hbr]
    · simp [hbr]
  exact ⟨processAdjusted_doc_branch app settings rec file _ text off t s e lf
      hres hmd hb,
    (processAdjusted_doc_branch app settings rec file _ text off t s e lf
      hres hmd hb).trans
      (processAdjusted_doc_branch app settings rec2 file _ text off t s e lf
        hres hmd hb).symm⟩

/-- Closed instance of the C4 theorem: a mid-line reference to a document is
replaced by its path, with the same result under two different recursion
functions. -/
theorem bake_cycle_or_inline_replacement_witness :
    processAdjusted appR stW recW fileW (derivedAncestors [] fileW)
        "See [[W]] here." 0 ⟨"W", none, 4, 9⟩ 4 9 =
      some ("See W here.", -4) ∧
    processAdjusted appR stW recW fileW (derivedAncestors [] fileW)
        "See [[W]] here." 0 ⟨"W", none, 4, 9⟩ 4 9 =
      processAdjusted appR stW recBoom fileW (derivedAncestors [] fileW)
        "See [[W]] here." 0 ⟨"W", none, 4, 9⟩ 4 9 := by
  have h := bake_cycle_or_inline_replacement appR stW recW recBoom fileW []
    "See [[W]] here." 0 ⟨"W", none, 4, 9⟩ 4 9 fileW rfl rfl
    (Or.inr (by decide))
  exact ⟨h.1.trans (by decide), h.2⟩

/-- C10: for every document-target reference replaced by text, the display
text is used only when it is a non-empty string; an absent or empty display
text falls back to the parsed link path, which is the link text with any
subpath suffix (from the first `#` on) removed. -/
theorem display_text_fallback :
    (∀ p, displayOr none p = p) ∧
    (∀ p, displayOr (some "") p = p) ∧
    (∀ p d, d ≠ "" → displayOr (some d) p = d) ∧
    (∀ link : String,
      (parseLinktext link).1 ++ (parseLinktext link).2 = link ∧
      ∀ c ∈ ((parseLinktext link).1 : String).data, c ≠ '#') ∧
    (∀ app settings rec file newAnc text off t (s e : Int) lf,
      app.getFirstLinkpathDest (parseLinktext t.link).1 file.path =
        some lf →
      lf.extension = "md" →
      (decide (lf ∈ newAnc) || isInlineCode settings.bakeInList
        (strTake text (s + off).toNat) (strDrop text (e + off).toNat)) =
        true →
      processAdjusted app settings rec file newAnc text off t s e =
        some (strTake text (s + off).toNat ++
            displayOr t.displayText (parseLinktext t.link).1 ++
            strDrop text (e + off).toNat,
          off + ((displayOr t.displayText (parseLinktext t.link).1).length :
            Int) - (e - s))) := by
  refine ⟨fun p => rfl, fun p => rfl, fun p d hd => ?_, fun link => ⟨?_, ?_⟩,
    fun app settings rec file newAnc text off t s e lf hres hmd hbr =>
      processAdjusted_doc_branch app settings rec file newAnc text off t s e
        lf hres hmd hbr⟩
  · simp [displayOr, hd]
  · obtain ⟨data⟩ := link
    show String.mk _ ++ String.mk _ = String.mk data
    exact congrArg String.mk (List.takeWhile_append_dropWhile _ _)
  · intro c hc
    have := List.mem_takeWhile_imp hc
    simpa using this

/-- Closed instance of the C10 theorem: an empty display text falls back to
the parsed path. -/
theorem display_text_fallback_witness :
    displayOr (some "") "W" = "W" ∧
    displayOr (some "shown") "W" = "shown" ∧
    processAdjusted appR stW recW fileW [] "a [[W#sec|]] b" 0
        ⟨"W#sec", some "", 2, 12⟩ 2 12 =
      some ("a W b", -9) := by
  refine ⟨display_text_fallback.2.1 "W",
    display_text_fallback.2.2.1 "W" "shown" (by decide), ?_⟩
  have h := display_text_fallback.2.2.2.2 appR stW recW fileW [] "a [[W#sec|]] b"
    0 ⟨"W#sec", some "", 2, 12⟩ 2 12 fileW (by decide) rfl (by decide)
  exact h.trans (by decide)

/-- A successful `findPrefixIdx` points at an occurrence of the pattern. -/
theorem findPrefixIdx_some (pat : List Char) :
    ∀ (l : List Char) (j : Nat), findPrefixIdx pat l = some j →
      pat.isPrefixOf (l.drop j) = true := by
  intro l
  induction l with
  | nil =>
    intro j h
    simp only [findPrefixIdx] at h
    split at h
    · next hE =>
      obtain rfl : (0 : Nat) = j := Option.some.inj h
      rw [List.isEmpty_iff] at hE
      subst hE
      rfl
    · exact absurd h (by simp)
  | cons c rest ih =>
    intro j h
    simp only [findPrefixIdx] at h
    split at h
    · next hp =>
      obtain rfl : (0 : Nat) = j := Option.some.inj h
      simpa using hp
    · next hp =>
      rw [Option.map_eq_some'] at h
      obtain ⟨k, hk, rfl⟩ := h
      simpa [List.drop_succ_cons] using ih k hk

/-- A successful `findSubFrom` result is at or after the scan position and
points at an occurrence of the pattern. -/
theorem findSubFrom_some (s pat : List Char) (i j : Nat)
    (h : findSubFrom s pat i = some j) :
    i ≤ j ∧ pat.isPrefixOf (s.drop j) = true := by
  simp only [findSubFrom, Option.map_eq_some'] at h
  obtain ⟨k, hk, rfl⟩ := h
  refine ⟨Nat.le_add_left i k, ?_⟩
  have := findPrefixIdx_some pat (s.drop i) k hk
  rwa [List.drop_drop, Nat.add_comm] at this

/-- C3 (amended): every discovered region starts at a start-marker
occurrence not before the scan position, its end is the first end marker
found from ten characters past its start (plus the twelve the source adds),
so its span is at least 22 characters wide, and the successive region starts
grow by at least the ten characters of a start marker; a start marker with
no following end marker yields no region.  The scan resumes after the start
marker, not after the region end, so regions may overlap. -/
theorem findHiddenRegions_characterization :
    ∀ (fuel : Nat) (s : List Char) (pos : Nat),
      List.Chain' (fun a b => a.start + 10 ≤ b.start)
        (findHiddenRegionsAux fuel s pos) ∧
      ∀ r ∈ findHiddenRegionsAux fuel s pos,
        pos ≤ r.start ∧
        hiddenStartMarker.isPrefixOf (s.drop r.start) = true ∧
        findSubFrom s hiddenEndMarker (r.start + 10) = some (r.stop - 12) ∧
        r.start + 22 ≤ r.stop := by
  intro fuel
  induction fuel with
  | zero =>
    intro s pos
    exact ⟨List.chain'_nil, by simp [findHiddenRegionsAux]⟩
  | succ fuel ih =>
    intro s pos
    simp only [findHiddenRegionsAux]
    cases hs : findSubFrom s hiddenStartMarker pos with
    | none => simp
    | some idx =>
      obtain ⟨hpos_le, hpref⟩ := findSubFrom_some s hiddenStartMarker pos idx hs
      dsimp only
      cases he : findSubFrom s hiddenEndMarker (idx + 10) with
      | none =>
        dsimp only
        refine ⟨(ih s (idx + 10)).1, ?_⟩
        intro r hr
        obtain ⟨h1, h2, h3, h4⟩ := (ih s (idx + 10)).2 r hr
        exact ⟨by omega, h2, h3, h4⟩
      | some e2 =>
        obtain ⟨he_le, hepref⟩ :=
          findSubFrom_some s hiddenEndMarker (idx + 10) e2 he
        dsimp only
        constructor
        · rw [List.chain'_cons']
          refine ⟨?_, (ih s (idx + 10)).1⟩
          intro b hb
          have hmem : b ∈ findHiddenRegionsAux fuel s (idx + 10) :=
            List.mem_of_mem_head? hb
          exact ((ih s (idx + 10)).2 b hmem).1
        · intro r hr
          rcases List.mem_cons.mp hr with rfl | hr
          · refine ⟨hpos_le, hpref, ?_, ?_⟩
            · simpa using he
            · show idx + 22 ≤ e2 + 12
              omega
          · obtain ⟨h1, h2, h3, h4⟩ := (ih s (idx + 10)).2 r hr
            exact ⟨by omega, h2, h3, h4⟩

/-- Closed instance of the C3 (amended) theorem at a concrete text. -/
theorem findHiddenRegions_characterization_witness :
    List.Chain' (fun a b => a.start + 10 ≤ b.start)
      (findHiddenRegionsAux 24 "x%%hidden%%y%%/hidden%%".data 0) ∧
    ((0 : Nat) ≤ 1 ∧
      hiddenStartMarker.isPrefixOf
        ("x%%hidden%%y%%/hidden%%".data.drop 1) = true ∧
      findSubFrom "x%%hidden%%y%%/hidden%%".data hiddenEndMarker (1 + 10) =
        some (24 - 12) ∧
      1 + 22 ≤ 24) :=
  ⟨(findHiddenRegions_characterization 24 "x%%hidden%%y%%/hidden%%".data 0).1,
   (findHiddenRegions_characterization 24 "x%%hidden%%y%%/hidden%%".data 0).2
     ⟨1, 24⟩ (by decide)⟩

/-- C3 (counterexample): with a nested start marker the discovered regions
overlap, because the scan for the next start marker resumes ten characters
after the previous start marker rather than after the previous region end:
on `%%hidden%%%%hidden%%%%/hidden%%` the two regions share the end marker. -/
theorem findHiddenRegions_overlap_counterexample :
    (hiddenFilter false "%%hidden%%%%hidden%%%%/hidden%%").2 =
      [⟨0, 32⟩, ⟨10, 32⟩] ∧
    ¬ List.Pairwise (fun a b => a.stop ≤ b.start ∨ b.stop ≤ a.start)
      (hiddenFilter false "%%hidden%%%%hidden%%%%/hidden%%").2 := by
  exact ⟨by decide, by decide⟩

/-- Membership in the derived ancestor set. -/
theorem mem_derivedAncestors {x file : TFile} {anc : List TFile} :
    x ∈ derivedAncestors anc file ↔ x = file ∨ x ∈ anc := by
  unfold derivedAncestors
  split
  · next h =>
    constructor
    · exact fun hx => Or.inr hx
    · rintro (rfl | hx)
      · exact h
      · exact hx
  · simp [List.mem_cons]

/-- The `isInline` expression of the loop body is `isInlineCode`. -/
theorem isInlineCode_fold (b : Bool) (x y : String) :
    (!((if b = true then listLineMatch x else none).isSome ||
        lineStartTest x) || !lineEndTest y) = isInlineCode b x y := rfl

/-- The loop body can only fail through the recursive call, which is reached
only for a resolved target outside the ancestor set. -/
theorem processAdjusted_isSome (app : App) (settings : BakeSettings)
    (rec : TFile → Option String → List TFile → Option String)
    (file : TFile) (newAnc : List TFile) (text : String) (off : Int)
    (t : RefCache) (s e : Int)
    (hrec : ∀ lf sp,
      app.getFirstLinkpathDest (parseLinktext t.link).1 file.path =
        some lf →
      lf ∉ newAnc → (rec lf sp newAnc).isSome = true) :
    (processAdjusted app settings rec file newAnc text off t s e).isSome =
      true := by
  simp only [processAdjusted]
  cases hres : app.getFirstLinkpathDest (parseLinktext t.link).1 file.path with
  | none => rfl
  | some lf =>
    dsimp only
    rw [isInlineCode_fold]
    by_cases hmd : lf.extension = "md"
    · by_cases hmem : lf ∈ newAnc
      · simp [hmd, hmem]
      · by_cases hinl : isInlineCode settings.bakeInList
            (strTake text (s + off).toNat) (strDrop text (e + off).toNat) =
            true
        · simp [hmd, hmem, hinl]
        · have h := hrec lf (some (parseLinktext t.link).2) hres hmem
          cases hrcall : rec lf (some (parseLinktext t.link).2) newAnc with
          | none => rw [hrcall] at h; exact absurd h (by simp)
          | some b => simp [hmd, hmem, hinl, hrcall]
    · simp only [hmd, decide_False, Bool.not_false, if_true]
      split
      · rfl
      · cases hgf : app.getFullPath <;> rfl

/-- The full loop iteration can only fail through the recursive call. -/
theorem processTarget_isSome (app : App) (settings : BakeSettings)
    (rec : TFile → Option String → List TFile → Option String)
    (file : TFile) (hr : List Region) (newAnc : List TFile)
    (text : String) (off : Int) (t : RefCache)
    (hrec : ∀ lf sp,
      app.getFirstLinkpathDest (parseLinktext t.link).1 file.path =
        some lf →
      lf ∉ newAnc → (rec lf sp newAnc).isSome = true) :
    (processTarget app settings rec file hr newAnc text off t).isSome =
      true := by
  simp only [processTarget]
  split
  · exact processAdjusted_isSome app settings rec file newAnc text off t _ _
      hrec
  · split
    · rfl
    · exact processAdjusted_isSome app settings rec file newAnc text off t _ _
        hrec

/-- The whole loop succeeds when every reachable recursive call does. -/
theorem bakeTargets_isSome (app : App) (settings : BakeSettings)
    (rec : TFile → Option String → List TFile → Option String)
    (file : TFile) (hr : List Region) (newAnc : List TFile)
    (hrec : ∀ (t : RefCache) lf sp,
      app.getFirstLinkpathDest (parseLinktext t.link).1 file.path =
        some lf →
      lf ∉ newAnc → (rec lf sp newAnc).isSome = true) :
    ∀ (ts : List RefCache) (text : String) (off : Int),
      (bakeTargets app settings rec file hr newAnc ts text off).isSome =
        true := by
  intro ts
  induction ts with
  | nil => intro text off; rfl
  | cons t ts ih =>
    intro text off
    simp only [bakeTargets]
    have hp := processTarget_isSome app settings rec file hr newAnc text off t
      (hrec t)
    cases hpt : processTarget app settings rec file hr newAnc text off t with
    | none => rw [hpt] at hp; exact absurd hp (by simp)
    | some st =>
      obtain ⟨text2, off2⟩ := st
      exact ih text2 off2

/-- The tail of the `bake` body is `some`-valued when the loop is. -/
theorem ifEmpty_bakeTargets_isSome (app : App) (settings : BakeSettings)
    (rec : TFile → Option String → List TFile → Option String)
    (file : TFile) (hr : List Region) (na : List TFile)
    (ts1 ts2 : List RefCache) (text2 : String)
    (hb : (bakeTargets app settings rec file hr na ts2 text2 0).isSome =
      true) :
    (if ts1.isEmpty = true then some text2
     else
       match bakeTargets app settings rec file hr na ts2 text2 0 with
       | none => none
       | some (t, _) => some t).isSome = true := by
  split
  · rfl
  · cases hbt : bakeTargets app settings rec file hr na ts2 text2 0 with
    | none => rw [hbt] at hb; exact absurd hb (by simp)
    | some st =>
      obtain ⟨t2, o2⟩ := st
      rfl

/-- C6: `bake` terminates on every finite document graph.  With the resolver
range inside a finite universe `univ`, any fuel exceeding the number of
universe documents outside the ancestor set suffices: recursion happens only
into targets outside the derived ancestor set, which strictly grows along
the call path, so the nesting depth is bounded by the number of distinct
documents and cyclic graphs terminate (with the repeated document replaced
by text, per the cycle-or-inline branch). -/
theorem bake_terminates_with_sufficient_fuel (app : App)
    (settings : BakeSettings) (univ : Finset TFile)
    (hres : ∀ p b f, app.getFirstLinkpathDest p b = some f → f ∈ univ) :
    ∀ (fuel : Nat) (file : TFile) (subpath : Option String)
      (ancestors : List TFile),
      (univ.filter fun f => f ∉ ancestors ∧ f ≠ file).card < fuel →
      (bake app settings fuel file subpath ancestors).isSome = true := by
  intro fuel
  induction fuel with
  | zero =>
    intro file subpath anc h
    exact absurd h (Nat.not_lt_zero _)
  | succ fuel ih =>
    intro file subpath anc hcard
    simp only [bake]
    cases hc : app.getFileCache file with
    | none => rfl
    | some cache =>
      dsimp only
      have hrec : ∀ (t : RefCache) lf sp,
            app.getFirstLinkpathDest (parseLinktext t.link).1 file.path =
              some lf →
            lf ∉ derivedAncestors anc file →
            (bake app settings fuel lf sp
              (derivedAncestors anc file)).isSome = true := by
        intro t lf sp hlf hnot
        have hlfu : lf ∈ univ := hres _ _ _ hlf
        rw [mem_derivedAncestors] at hnot
        push_neg at hnot
        obtain ⟨hlf_ne, hlf_anc⟩ := hnot
        apply ih
        have hlfS : lf ∈ univ.filter fun f => f ∉ anc ∧ f ≠ file :=
          Finset.mem_filter.mpr ⟨hlfu, hlf_anc, hlf_ne⟩
        have hsub :
            (univ.filter fun f =>
              f ∉ derivedAncestors anc file ∧ f ≠ lf) ⊆
              (univ.filter fun f => f ∉ anc ∧ f ≠ file).erase lf := by
          intro x hx
          rw [Finset.mem_filter] at hx
          obtain ⟨hxu, hxna, hxne⟩ := hx
          rw [mem_derivedAncestors] at hxna
          push_neg at hxna
          rw [Finset.mem_erase, Finset.mem_filter]
          exact ⟨hxne, hxu, hxna.2, hxna.1⟩
        have h1 := Finset.card_le_card hsub
        have h2 := Finset.card_erase_of_mem hlfS
        have h3 := Finset.card_pos.mpr ⟨lf, hlfS⟩
        omega
      exact ifEmpty_bakeTargets_isSome app settings (bake app settings fuel)
        file _ _ _ _ _
        (bakeTargets_isSome app settings (bake app settings fuel) file _
          (derivedAncestors anc file) hrec _ _ 0)

/-- Closed instance of the C6 theorem: baking the cyclic pair succeeds with
fuel 3, and in fact produces `X` (the second occurrence of `X` replaced by
its path rather than expanded). -/
theorem bake_terminates_with_sufficient_fuel_witness :
    (bake appCycle stT 3 fX none []).isSome = true ∧
    bake appCycle stT 3 fX none [] = some "X" := by
  constructor
  · apply bake_terminates_with_sufficient_fuel appCycle stT
      ({fX, fY} : Finset TFile)
    · intro p b f h
      simp only [appCycle] at h
      split_ifs at h with h1 h2
      · obtain rfl : fX = f := Option.some.inj h
        simp
      · obtain rfl : fY = f := Option.some.inj h
        simp
    · decide
  · decide

/-- C9 (counterexample): the captured indent group of `listLineStartRE` is
only the leading whitespace of the list line (empty for `- [[Note]]`), so
the baked list item is `- Line1\nLine2`: the second line is not indented to
sit under the bullet, contradicting the claimed `- Line1\n  Line2`. -/
theorem bake_list_reindent_counterexample :
    bake appNote stT 2 fH none [] = some "- Line1\nLine2" ∧
    bake appNote stT 2 fH none [] ≠ some "- Line1\n  Line2" :=
  ⟨by decide, by decide⟩

/-- C9 (amended): a list item `- [[Note]]` with `bakeInList` on, where
`Note` bakes to `Line1\nLine2`, yields `- Line1\nLine2`: the sanitized baked
content has its first bullet or number marker stripped and every subsequent
line indented by the captured indent string, which is the leading whitespace
of the list line (empty here), not the whole list prefix. -/
theorem bake_list_reindent_amended :
    bake appNote stT 2 fH none [] = some "- Line1\nLine2" ∧
    (∀ app settings rec file newAnc text off t (s e : Int) lf b indent,
      app.getFirstLinkpathDest (parseLinktext t.link).1 file.path =
        some lf →
      lf.extension = "md" →
      decide (lf ∈ newAnc) = false →
      settings.bakeInList = true →
      listLineMatch (strTake text (s + off).toNat) = some indent →
      lineEndTest (strDrop text (e + off).toNat) = true →
      rec lf (some (parseLinktext t.link).2) newAnc = some b →
      processAdjusted app settings rec file newAnc text off t s e =
        some (strTake text (s + off).toNat ++
            applyIndent (stripFirstBullet (sanitizeBakedContent b)) indent ++
            strDrop text (e + off).toNat,
          off + ((applyIndent (stripFirstBullet (sanitizeBakedContent b))
            indent).length : Int) - (e - s))) := by
  refine ⟨by decide, ?_⟩
  intro app settings rec file newAnc text off t s e lf b indent hres hmd hmem
    hbil hlm hle hrcall
  simp only [processAdjusted, hres, hmd, hbil, hmem, hlm, hle, hrcall,
    decide_True, Bool.not_true, Bool.false_eq_true, if_false, if_true,
    Option.isSome_some, Bool.true_or, Bool.not_false, Bool.false_or,
    Bool.or_false]
  have harith : e + off - (s + off) = e - s := by ring
  rw [harith]

/-- Closed instance of the C9 (amended) theorem at the list-item scenario. -/
theorem bake_list_reindent_amended_witness :
    processAdjusted appNote stT recNote fH [fH] "- [[Note]]" 0
        ⟨"Note", none, 2, 10⟩ 2 10 =
      some ("- Line1\nLine2", 3) := by
  have h := bake_list_reindent_amended.2 appNote stT recNote fH [fH]
    "- [[Note]]" 0 ⟨"Note", none, 2, 10⟩ 2 10 fNote "Line1\nLine2" ""
    (by decide) rfl (by decide) rfl (by decide) (by decide) rfl
  exact h.trans (by decide)

/-- `takeWhile` passes over a wholly satisfying prefix. -/
theorem takeWhile_append_all {p : Char → Bool} :
    ∀ {l1 : List Char} (l2 : List Char), (∀ c ∈ l1, p c = true) →
      (l1 ++ l2).takeWhile p = l1 ++ l2.takeWhile p := by
  intro l1
  induction l1 with
  | nil => intro l2 _; rfl
  | cons c rest ih =>
    intro l2 h
    have hc : p c = true := h c (by simp)
    simp only [List.cons_append, List.takeWhile_cons, hc, if_true]
    rw [ih l2 fun d hd => h d (by simp [hd])]

/-- `dropWhile` passes over a wholly satisfying prefix. -/
theorem dropWhile_append_all {p : Char → Bool} :
    ∀ {l1 : List Char} (l2 : List Char), (∀ c ∈ l1, p c = true) →
      (l1 ++ l2).dropWhile p = l2.dropWhile p := by
  intro l1
  induction l1 with
  | nil => intro l2 _; rfl
  | cons c rest ih =>
    intro l2 h
    have hc : p c = true := h c (by simp)
    simp only [List.cons_append, List.dropWhile_cons, hc, if_true]
    exact ih l2 fun d hd => h d (by simp [hd])

/-- `takeWhile` and `dropWhile` split exactly at a failing head. -/
theorem takeWhile_dropWhile_append {p : Char → Bool} {l1 l2 : List Char}
    (h1 : ∀ c ∈ l1, p c = true)
    (h2 : ∀ x t, l2 = x :: t → p x = false) :
    (l1 ++ l2).takeWhile p = l1 ∧ (l1 ++ l2).dropWhile p = l2 := by
  have htail : l2.takeWhile p = [] ∧ l2.dropWhile p = l2 := by
    cases l2 with
    | nil => exact ⟨rfl, rfl⟩
    | cons x t =>
      have hx := h2 x t rfl
      simp [List.takeWhile_cons, List.dropWhile_cons, hx]
  refine ⟨?_, ?_⟩
  · rw [takeWhile_append_all l2 h1, htail.1, List.append_nil]
  · rw [dropWhile_append_all l2 h1, htail.2]

/-- The head left by `dropWhile` fails the predicate. -/
theorem dropWhile_head_false {p : Char → Bool} :
    ∀ (l : List Char) {c : Char} {t : List Char},
      l.dropWhile p = c :: t → p c = false := by
  intro l
  induction l with
  | nil => intro c t h; cases h
  | cons x rest ih =>
    intro c t h
    rw [List.dropWhile_cons] at h
    split at h
    · exact ih h
    · next hx =>
      obtain ⟨rfl, rfl⟩ : x = c ∧ rest = t := by
        cases h; exact ⟨rfl, rfl⟩
      exact Bool.not_eq_true _ ▸ hx

/-- A list splits as its before-last-line part plus its last line. -/
theorem dropLastLine_append_lastLine (l : List Char) :
    dropLastLine l ++ lastLine l = l := by
  unfold dropLastLine lastLine
  rw [← List.reverse_append, List.takeWhile_append_dropWhile,
    List.reverse_reverse]

/-- The before-last-line part is empty or ends in a newline. -/
theorem dropLastLine_spec (l : List Char) :
    dropLastLine l = [] ∨ (dropLastLine l).getLast? = some '\n' := by
  unfold dropLastLine
  cases h : l.reverse.dropWhile fun c => decide (c ≠ '\n') with
  | nil => exact Or.inl rfl
  | cons c t =>
    right
    have hc := dropWhile_head_false _ h
    have hc2 : c = '\n' := by simpa using hc
    rw [List.getLast?_reverse]
    simp [hc2]

/-- The last line contains no newline. -/
theorem lastLine_not_newline (l : List Char) : '\n' ∉ lastLine l := by
  unfold lastLine
  rw [List.mem_reverse]
  intro hmem
  have := List.mem_takeWhile_imp hmem
  simp at this

/-- Any line-start decomposition with a newline-free tail is the last-line
decomposition. -/
theorem lastLine_of_decomp {pre suf : List Char}
    (hpre : pre = [] ∨ pre.getLast? = some '\n') (hsuf : '\n' ∉ suf) :
    lastLine (pre ++ suf) = suf := by
  unfold lastLine
  rw [List.reverse_append]
  have hall : ∀ c ∈ suf.reverse, (fun c => decide (c ≠ '\n')) c = true := by
    intro c hc
    rw [List.mem_reverse] at hc
    simp only [decide_eq_true_eq]
    intro hh
    exact hsuf (hh ▸ hc)
  rcases hpre with rfl | hlast
  · rw [List.reverse_nil, List.append_nil, List.takeWhile_eq_self_iff.mpr hall,
      List.reverse_reverse]
  · have hhead : pre.reverse.head? = some '\n' := by
      rw [List.head?_reverse]; exact hlast
    cases hrev : pre.reverse with
    | nil => rw [hrev] at hhead; cases hhead
    | cons c t =>
      rw [hrev] at hhead
      have hc : c = '\n' := by
        have : some c = some '\n' := by simpa using hhead
        exact Option.some.inj this
      subst hc
      rw [(takeWhile_dropWhile_append hall ?_).1, List.reverse_reverse]
      intro x t2 hx
      obtain ⟨rfl, _⟩ : '\n' = x ∧ t = t2 := by
        cases hx; exact ⟨rfl, rfl⟩
      simp

/-- C5 helper: the bare-line regex test matches its spec wording. -/
theorem lineStartTest_iff (s : String) :
    lineStartTest s = true ↔ EndsAtLineStart s := by
  constructor
  · intro h
    refine ⟨dropLastLine s.data, lastLine s.data,
      (dropLastLine_append_lastLine s.data).symm, dropLastLine_spec s.data,
      ?_⟩
    intro c hc
    have := List.all_eq_true.mp h c hc
    simpa using this
  · rintro ⟨pre, suf, hdecomp, hpre, hsuf⟩
    have hnl : '\n' ∉ suf := by
      intro hmem
      have := hsuf '\n' hmem
      simp at this
    unfold lineStartTest
    rw [hdecomp, lastLine_of_decomp hpre hnl]
    rw [List.all_eq_true]
    intro c hc
    simpa using hsuf c hc

/-- `isIndentChar` characterisation. -/
theorem isIndentChar_iff {c : Char} :
    isIndentChar c = true ↔ (c = ' ' ∨ c = '\t') := by
  simp [isIndentChar]

/-- `isBulletChar` characterisation. -/
theorem isBulletChar_iff {c : Char} :
    isBulletChar c = true ↔ (c = '-' ∨ c = '*' ∨ c = '+') := by
  simp [isBulletChar, or_assoc]

/-- A bullet character is not indent whitespace. -/
theorem bullet_not_indent {c : Char} (h : isBulletChar c = true) :
    isIndentChar c = false := by
  rcases isBulletChar_iff.mp h with rfl | rfl | rfl <;> rfl

/-- A digit is not indent whitespace. -/
theorem digit_not_indent {c : Char} (h : c.isDigit = true) :
    isIndentChar c = false := by
  cases hc : isIndentChar c with
  | false => rfl
  | true =>
    exfalso
    rcases isIndentChar_iff.mp hc with rfl | rfl
    · exact absurd h (by decide)
    · exact absurd h (by decide)

/-- A digit is not a bullet character. -/
theorem digit_not_bullet {c : Char} (h : c.isDigit = true) :
    isBulletChar c = false := by
  cases hc : isBulletChar c with
  | false => rfl
  | true =>
    exfalso
    rcases isBulletChar_iff.mp hc with rfl | rfl | rfl
    · exact absurd h (by decide)
    · exact absurd h (by decide)
    · exact absurd h (by decide)

/-- A period or closing parenthesis is not a digit. -/
theorem dotparen_not_digit {p : Char} (h : p = '.' ∨ p = ')') :
    p.isDigit = false := by
  rcases h with rfl | rfl <;> rfl

/-- Soundness of the list-item line parser: success yields the spec
decomposition, with the returned group equal to the leading whitespace. -/
theorem parseListLine_sound {l ws : List Char}
    (h : parseListLine l = some ws) :
    ∃ mark sp, l = ws ++ mark ++ sp ∧ (∀ c ∈ ws, c = ' ' ∨ c = '\t') ∧
      (IsBulletMark mark ∨ IsNumberMark mark) ∧ sp ≠ [] ∧
      (∀ c ∈ sp, c = ' ') := by
  have hsplit := List.takeWhile_append_dropWhile isIndentChar l
  have hws : ∀ c ∈ l.takeWhile isIndentChar, c = ' ' ∨ c = '\t' :=
    fun c hc => isIndentChar_iff.mp (List.mem_takeWhile_imp hc)
  simp only [parseListLine] at h
  cases hdw : l.dropWhile isIndentChar with
  | nil => rw [hdw] at h; cases h
  | cons c cs =>
    rw [hdw] at h
    dsimp only at h
    split at h
    · next hbul =>
      split at h
      · next hcs =>
        obtain rfl : l.takeWhile isIndentChar = ws := Option.some.inj h
        rw [Bool.and_eq_true] at hcs
        obtain ⟨hne, hsp⟩ := hcs
        refine ⟨[c], cs, ?_, hws, Or.inl ?_, ?_, ?_⟩
        · have h1 : l = l.takeWhile isIndentChar ++ (c :: cs) := by
            rw [← hdw]
            exact hsplit.symm
          rw [List.append_assoc]
          exact h1
        · rcases isBulletChar_iff.mp hbul with rfl | rfl | rfl
          · exact Or.inl rfl
          · exact Or.inr (Or.inl rfl)
          · exact Or.inr (Or.inr rfl)
        · intro hnil
          rw [hnil] at hne
          exact absurd hne (by decide)
        · intro d hd
          simpa using List.all_eq_true.mp hsp d hd
      · cases h
    · split at h
      · next hdig =>
        cases hdd : (c :: cs).dropWhile Char.isDigit with
        | nil => rw [hdd] at h; cases h
        | cons p rest2 =>
          rw [hdd] at h
          dsimp only at h
          split at h
          · next hcond =>
            obtain rfl : l.takeWhile isIndentChar = ws := Option.some.inj h
            rw [Bool.and_eq_true, Bool.and_eq_true] at hcond
            obtain ⟨hp, hrest_ne, hrest_sp⟩ := hcond
            have hds := List.takeWhile_append_dropWhile Char.isDigit (c :: cs)
            refine ⟨(c :: cs).takeWhile Char.isDigit ++ [p], rest2, ?_, hws,
              Or.inr ?_, ?_, ?_⟩
            · have h1 : l = l.takeWhile isIndentChar ++ (c :: cs) := by
                rw [← hdw]
                exact hsplit.symm
              have h2 : (c :: cs) =
                  (c :: cs).takeWhile Char.isDigit ++ (p :: rest2) := by
                rw [← hdd]
                exact hds.symm
              conv_lhs => rw [h1, h2]
              simp
            · refine ⟨(c :: cs).takeWhile Char.isDigit, p, ?_, ?_, ?_, rfl⟩
              · rw [List.takeWhile_cons, if_pos hdig]
                exact List.cons_ne_nil _ _
              · exact fun d hd => List.mem_takeWhile_imp hd
              · simpa using hp
            · simpa using hrest_ne
            · intro d hd
              simpa using List.all_eq_true.mp hrest_sp d hd
          · cases h
      · cases h

/-- Completeness of the list-item line parser, bullet case. -/
theorem parseListLine_complete_bullet {ws sp : List Char} {b : Char}
    (h1 : ∀ c ∈ ws, isIndentChar c = true)
    (hbul : isBulletChar b = true)
    (hsp : sp ≠ []) (hspc : ∀ c ∈ sp, c = ' ') :
    parseListLine (ws ++ [b] ++ sp) = some ws := by
  have hl : ws ++ [b] ++ sp = ws ++ (b :: sp) := by simp
  have htd := @takeWhile_dropWhile_append isIndentChar ws (b :: sp) h1 ?hh
  case hh =>
    intro x t hx
    obtain ⟨rfl, rfl⟩ : b = x ∧ sp = t := by cases hx; exact ⟨rfl, rfl⟩
    exact bullet_not_indent hbul
  have hspb : (!sp.isEmpty && sp.all fun d => decide (d = ' ')) = true := by
    rw [Bool.and_eq_true]
    constructor
    · cases sp with
      | nil => exact absurd rfl hsp
      | cons x t => rfl
    · rw [List.all_eq_true]
      intro d hd
      simp [hspc d hd]
  rw [hl]
  simp only [parseListLine]
  rw [htd.1, htd.2]
  simp [hbul, hspb]

/-- Completeness of the list-item line parser, numbered case. -/
theorem parseListLine_complete_number {ws ds sp : List Char} {p : Char}
    (h1 : ∀ c ∈ ws, isIndentChar c = true)
    (hds : ds ≠ []) (hdsd : ∀ c ∈ ds, c.isDigit = true)
    (hp : p = '.' ∨ p = ')')
    (hsp : sp ≠ []) (hspc : ∀ c ∈ sp, c = ' ') :
    parseListLine (ws ++ (ds ++ [p]) ++ sp) = some ws := by
  obtain ⟨d0, ds2, rfl⟩ : ∃ d0 ds2, ds = d0 :: ds2 := by
    cases ds with
    | nil => exact absurd rfl hds
    | cons x t => exact ⟨x, t, rfl⟩
  have hd0 : d0.isDigit = true := hdsd d0 (by simp)
  have hl : ws ++ ((d0 :: ds2) ++ [p]) ++ sp =
      ws ++ (d0 :: (ds2 ++ p :: sp)) := by simp
  have htd := @takeWhile_dropWhile_append isIndentChar ws
    (d0 :: (ds2 ++ p :: sp)) h1 ?hh
  case hh =>
    intro x t hx
    obtain ⟨rfl, rfl⟩ : d0 = x ∧ ds2 ++ p :: sp = t := by
      cases hx; exact ⟨rfl, rfl⟩
    exact digit_not_indent hd0
  have htd2 := @takeWhile_dropWhile_append Char.isDigit (d0 :: ds2)
    (p :: sp) ?hd ?hph
  case hd => exact fun c hc => hdsd c hc
  case hph =>
    intro x t hx
    obtain ⟨rfl, rfl⟩ : p = x ∧ sp = t := by cases hx; exact ⟨rfl, rfl⟩
    exact dotparen_not_digit hp
  have hcond : ((decide (p = '.') || decide (p = ')')) &&
      (!sp.isEmpty && sp.all fun d => decide (d = ' '))) = true := by
    rw [Bool.and_eq_true, Bool.and_eq_true]
    refine ⟨by rcases hp with rfl | rfl <;> simp, ?_, ?_⟩
    · cases sp with
      | nil => exact absurd rfl hsp
      | cons x t => rfl
    · rw [List.all_eq_true]
      intro d hd
      simp [hspc d hd]
  rw [hl]
  simp only [parseListLine]
  rw [htd.1, htd.2]
  have hnb : isBulletChar d0 = false := digit_not_bullet hd0
  dsimp only
  rw [if_neg (by simp [hnb]), if_pos (by simp [hd0])]
  rw [← List.cons_append, htd2.2]
  dsimp only
  rw [if_pos hcond]

/-- Completeness of the list-item line parser. -/
theorem parseListLine_complete {ws mark sp : List Char}
    (hws : ∀ c ∈ ws, c = ' ' ∨ c = '\t')
    (hmark : IsBulletMark mark ∨ IsNumberMark mark)
    (hsp : sp ≠ []) (hspc : ∀ c ∈ sp, c = ' ') :
    parseListLine (ws ++ mark ++ sp) = some ws := by
  have h1 : ∀ c ∈ ws, isIndentChar c = true :=
    fun c hc => isIndentChar_iff.mpr (hws c hc)
  rcases hmark with (rfl | rfl | rfl) | hn
  · exact parseListLine_complete_bullet h1 (by decide) hsp hspc
  · exact parseListLine_complete_bullet h1 (by decide) hsp hspc
  · exact parseListLine_complete_bullet h1 (by decide) hsp hspc
  · obtain ⟨ds, p, hds, hdsd, hp, rfl⟩ := hn
    exact parseListLine_complete_number h1 hds hdsd hp hsp hspc

/-- C5 helper: the list-item regex match succeeds exactly on the spec
wording of a list-item start. -/
theorem listLineMatch_isSome_iff (s : String) :
    (listLineMatch s).isSome = true ↔ StartsListItem s := by
  constructor
  · intro h
    have hex : ∃ ws, parseListLine (lastLine s.data) = some ws := by
      unfold listLineMatch at h
      cases hpl : parseListLine (lastLine s.data) with
      | none => rw [hpl] at h; cases h
      | some ws => exact ⟨ws, rfl⟩
    obtain ⟨ws, hws⟩ := hex
    obtain ⟨mark, sp, hdecomp, hwsp, hmark, hspne, hspc⟩ :=
      parseListLine_sound hws
    refine ⟨dropLastLine s.data, ws, mark, sp, ?_, dropLastLine_spec s.data,
      hwsp, hmark, hspne, hspc⟩
    conv_lhs => rw [← dropLastLine_append_lastLine s.data, hdecomp]
    simp [List.append_assoc]
  · rintro ⟨pre, ws, mark, sp, hdecomp, hpre, hwsp, hmark, hspne, hspc⟩
    have hnl : '\n' ∉ ws ++ mark ++ sp := by
      intro hmem
      rcases List.mem_append.mp hmem with h2 | h2
      · rcases List.mem_append.mp h2 with h3 | h3
        · rcases hwsp '\n' h3 with h4 | h4 <;> exact absurd h4 (by decide)
        · rcases hmark with (rfl | rfl | rfl) | ⟨ds, p, _, hdsd, hp, rfl⟩
          · exact absurd (List.mem_singleton.mp h3) (by decide)
          · exact absurd (List.mem_singleton.mp h3) (by decide)
          · exact absurd (List.mem_singleton.mp h3) (by decide)
          · rcases List.mem_append.mp h3 with h4 | h4
            · exact absurd (hdsd '\n' h4) (by decide)
            · have h5 := List.mem_singleton.mp h4
              rcases hp with rfl | rfl <;> exact absurd h5 (by decide)
      · exact absurd (hspc '\n' h2) (by decide)
    have hassoc : s.data = pre ++ (ws ++ mark ++ sp) := by
      rw [hdecomp]
      simp [List.append_assoc]
    have hll : lastLine s.data = ws ++ mark ++ sp := by
      rw [hassoc]
      exact lastLine_of_decomp hpre hnl
    unfold listLineMatch
    rw [hll, parseListLine_complete hwsp hmark hspne hspc]
    rfl

/-- C5 helper: the end-of-line regex test matches its spec wording. -/
theorem lineEndTest_iff (s : String) : lineEndTest s = true ↔ EndsLine s := by
  constructor
  · intro h
    refine ⟨s.data.takeWhile (fun c => decide (c = ' ')),
      s.data.dropWhile (fun c => decide (c = ' ')),
      (List.takeWhile_append_dropWhile _ _).symm, ?_, ?_⟩
    · intro c hc
      simpa using List.mem_takeWhile_imp hc
    · unfold lineEndTest at h
      cases hdw : s.data.dropWhile (fun c => decide (c = ' ')) with
      | nil => exact Or.inl rfl
      | cons c rest =>
        rw [hdw] at h
        dsimp only at h
        split at h
        · next hc =>
          subst hc
          exact Or.inr (Or.inl ⟨rest, rfl⟩)
        · next hc =>
          split at h
          · next hc2 =>
            subst hc2
            cases rest with
            | nil => cases h
            | cons c2 t =>
              have hc3 : c2 = '\n' := by simpa using h
              subst hc3
              exact Or.inr (Or.inr ⟨t, rfl⟩)
          · cases h
  · rintro ⟨sp, rest, hdecomp, hsp, hshape⟩
    have hsp2 : ∀ c ∈ sp, (fun c => decide (c = ' ')) c = true :=
      fun c hc => by simp [hsp c hc]
    unfold lineEndTest
    rw [hdecomp]
    rcases hshape with rfl | ⟨t, rfl⟩ | ⟨t, rfl⟩
    · rw [dropWhile_append_all [] hsp2]
      rfl
    · rw [(takeWhile_dropWhile_append hsp2 ?h1).2]
      case h1 =>
        intro x t2 hx
        obtain ⟨rfl, _⟩ : '\n' = x ∧ t = t2 := by cases hx; exact ⟨rfl, rfl⟩
        rfl
      simp
    · rw [(takeWhile_dropWhile_append hsp2 ?h2).2]
      case h2 =>
        intro x t2 hx
        obtain ⟨rfl, _⟩ : '\r' = x ∧ '\n' :: t = t2 := by
          cases hx; exact ⟨rfl, rfl⟩
        rfl
      simp

/-- C5: a processed reference is classified inline exactly when the text
before it is neither a bare line start (spaces only after the last newline)
nor, with `bakeInList` enabled, a list-item start (optional whitespace, a
bullet or numbered marker, then at least one space), or when the text after
it fails the end-of-line test (spaces up to a newline, a
carriage-return-newline pair, or the end of the text). -/
theorem isInline_classification (bakeInList : Bool) (before after : String) :
    isInlineCode bakeInList before after = true ↔
      (¬(EndsAtLineStart before ∨
          (bakeInList = true ∧ StartsListItem before)) ∨
        ¬ EndsLine after) := by
  have hm : ((if bakeInList then listLineMatch before else none).isSome =
      true) ↔ (bakeInList = true ∧ StartsListItem before) := by
    cases bakeInList
    · simp
    · simp [listLineMatch_isSome_iff]
  rw [← lineStartTest_iff, ← lineEndTest_iff, ← hm]
  simp only [isInlineCode]
  cases h1 : (if bakeInList then listLineMatch before else none).isSome <;>
    cases h2 : lineStartTest before <;>
    cases h3 : lineEndTest after <;>
    simp

/-- Closed instance of the C5 theorem: the reference in `- [[Note]]` with an
empty trailing text is not inline, because the before-text is a list-item
start and the after-text passes the end-of-line test. -/
theorem isInline_classification_witness :
    isInlineCode true "- " "" = false := by
  cases hb : isInlineCode true "- " "" with
  | false => rfl
  | true =>
    exfalso
    have hB : StartsListItem "- " :=
      ⟨[], [], ['-'], [' '], rfl, Or.inl rfl, by simp,
        Or.inl (Or.inl rfl), by simp, by simp⟩
    have hC : EndsLine "" := ⟨[], [], rfl, by simp, Or.inl rfl⟩
    rcases (isInline_classification true "- " "").mp hb with h1 | h2
    · exact h1 (Or.inr ⟨rfl, hB⟩)
    · exact h2 hC

end EasyBake
